import Mathlib

/-!
# Verification of the `min-max` numeric pipeline (`src/speedy_min.cpp`)

Shallow embedding of the core of `speedy_min.cpp`:

* the scalar codec `encode` / `decode` (pure double-precision formulas; every
  intermediate value the program produces on claimed inputs is an integer or a
  half-integer well below 2^53, so the double computation is exact and is
  modelled over `ℚ`);
* the rank-to-digit mapper `ithPermutation` (C++ `int` arithmetic, modelled as
  `Int` with two's-complement wrap-around at 32 bits where the running
  `factor` can overflow);
* the layer unwinder `reverse_engineer_encoded_value` with its telemetry
  logs, modelled with the mutable `std::vector` reference parameters threaded
  explicitly as accumulator arguments and the wall-clock measurement supplied
  by an `elapsed` oracle indexed by the layer depth of the step;
* the CSV loader `load_values_from_csv` and the pre-unwind phase of `main`.
-/

/-- `encode(Y, D) = pow(2, D) * (Y + D / 2.0)` from `speedy_min.cpp`.
The C++ computes in `double`; modelled exactly over `ℚ`. -/
def encode (Y : ℚ) (D : ℕ) : ℚ :=
  2 ^ D * (Y + (D : ℚ) / 2)

/-- `decode(X, D) = X / pow(2, D) - D / 2.0` from `speedy_min.cpp`.
The C++ computes in `double`; modelled exactly over `ℚ`. -/
def decode (X : ℚ) (D : ℕ) : ℚ :=
  X / 2 ^ D - (D : ℚ) / 2

/-- Two's-complement wrap-around of a 32-bit signed `int`, used to model the
C++ `int` multiplication `factor *= j` which overflows for `j ≥ 13`
(signed overflow is UB in C++; we model the conventional wrap). -/
def wrap32 (x : Int) : Int :=
  (x + 2 ^ 31) % 2 ^ 32 - 2 ^ 31

/-- Loop body of `ithPermutation`: `m` remaining iterations, current loop
index `j`, current running `factor`.  Each iteration performs
`factor *= j; element = (i / factor) % (j + 1); result.push_back(element)`
with C semantics: truncating division `Int.tdiv`, remainder `Int.tmod`
taking the sign of the dividend, and 32-bit wrap on the multiplication. -/
def ithPermAux (i : Int) : ℕ → ℕ → Int → List Int
  | 0, _, _ => []
  | m + 1, j, factor =>
    let factor2 := wrap32 (factor * (j : Int))
    let element := (i.tdiv factor2).tmod ((j : Int) + 1)
    element :: ithPermAux i m (j + 1) factor2

/-- `ithPermutation(n, k, i)` from `speedy_min.cpp`: for `j = 1..k`,
`factor *= j; element = (i / factor) % (j + 1); push element`.
The parameter `n` is accepted and ignored, exactly as in the source. -/
def ithPermutation (_n k i : Int) : List Int :=
  ithPermAux i k.toNat 1 1

/-- Truncation of a rational toward zero: models the C++
`static_cast<int>` applied to a `double` value. -/
def ratTrunc (q : ℚ) : Int :=
  q.num.tdiv (q.den : Int)

/-- `sizeof(std::vector<int>)` on an LP64 platform (three 8-byte pointers):
the constant the code pushes into `sizes`.  Its exact value is
implementation-defined but is a compile-time constant independent of the
vector's contents. -/
def sizeofVectorInt : Int := 24

/-- The value handed to the recursive call by one unwind step at depth `d`:
`original_value = static_cast<int>(decode(value, 1) - layer_depth / 2.0)`.
All doubles involved are half-integers of magnitude below 2^32, so the
double arithmetic is exact and the `ℚ` model is faithful. -/
def stepValue (v : Int) (d : ℕ) : Int :=
  ratTrunc (decode (v : ℚ) 1 - (d : ℚ) / 2)

/-- `reverse_engineer_encoded_value` from `speedy_min.cpp`.  The mutable
reference parameters `timings` and `sizes` are threaded explicitly and
returned alongside the digit sequence; the wall-clock duration pushed by the
step at depth `d` is supplied by the oracle as `elapsed d` (the duration is
nondeterministic real time; no claim constrains its value). -/
def reverse_engineer_encoded_value (elapsed : ℕ → ℚ) (value : Int)
    (layer_depth : ℕ) (n k : Int) (timings : List ℚ) (sizes : List Int) :
    List Int × List ℚ × List Int :=
  match layer_depth with
  | 0 => (ithPermutation n k value, timings, sizes)
  | d + 1 =>
    let decoded_value : ℚ := decode (value : ℚ) 1
    let original_value : Int := ratTrunc (decoded_value - ((d + 1 : ℕ) : ℚ) / 2)
    let r := reverse_engineer_encoded_value elapsed original_value d n k timings sizes
    (r.1, r.2.1 ++ [elapsed (d + 1)], r.2.2 ++ [sizeofVectorInt])

/-- The chain of values produced by `d` successive unwind steps starting
from `v` at depth `d`: the value with which `ithPermutation` is finally
invoked at depth 0. -/
def unwindValue (v : Int) : ℕ → Int
  | 0 => v
  | d + 1 => unwindValue (stepValue v (d + 1)) d

/-- The exact value of `l = ceil(k * log2(n))` computed by `main`
(`Nat.clog 2 (n ^ k) = ⌈k · log₂ n⌉` for `n ≥ 1`); the C++ evaluates the
same quantity in double precision. -/
def ceilKLog2 (n k : ℕ) : ℕ :=
  Nat.clog 2 (n ^ k)

/-- One line's worth of `std::stringstream >> int`: skip leading whitespace,
optional sign, then a nonempty run of decimal digits; `none` when extraction
fails (no digits). -/
def readIntToken (cs : List Char) : Option Int :=
  let cs2 := cs.dropWhile (fun c => c = ' ' ∨ c = '\t')
  match cs2 with
  | '-' :: rest => (readDigits rest).map (fun v => -(v : Int))
  | '+' :: rest => (readDigits rest).map (fun v => (v : Int))
  | rest => (readDigits rest).map (fun v => (v : Int))
where
  /-- Value of the leading run of decimal digits, `none` if there is none. -/
  readDigits (cs : List Char) : Option ℕ :=
    let ds := cs.takeWhile Char.isDigit
    if ds.isEmpty then none
    else some (ds.foldl (fun a c => 10 * a + (c.toNat - 48)) 0)

/-- `load_values_from_csv` from `speedy_min.cpp`, one `String` per line of
the file: `ss >> value; values.push_back(value);` with no failure check.
A failed extraction writes `0` into the target (C++11 semantics) and the
code pushes that `0` unconditionally. -/
def load_values_from_csv (lines : List String) : List Int :=
  lines.map (fun line => (readIntToken line.toList).getD 0)

/-- C1: `decode(encode(Y, D), D) = Y` — the codec formulas of
`speedy_min.cpp` are exact algebraic inverses for every value `Y` and every
depth `D ≥ 0` (the x86 assembly variant in `speedy_x86.cpp` is, per the
spec, only an alternate evaluation strategy for the same formulas). -/
theorem decode_encode_inverse (Y : ℚ) (D : ℕ) :
    decode (encode Y D) D = Y := by
  unfold decode encode
  have h : (2 : ℚ) ^ D ≠ 0 := pow_ne_zero D (by norm_num)
  field_simp
  ring

/-- Characterization of the unwinder: threading the logs through `d` steps
appends exactly one timing sample and one size entry per step, in order of
step completion (depth 1 first, depth `d` last), and the digit sequence is
`ithPermutation` applied once to the `d`-fold decoded value. -/
theorem reverse_engineer_spec (elapsed : ℕ → ℚ) (n k : Int) :
    ∀ (d : ℕ) (v : Int) (ts : List ℚ) (ss : List Int),
    reverse_engineer_encoded_value elapsed v d n k ts ss =
      (ithPermutation n k (unwindValue v d),
       ts ++ (List.range d).map (fun t => elapsed (t + 1)),
       ss ++ List.replicate d sizeofVectorInt) := by
  intro d
  induction d with
  | zero =>
    intro v ts ss
    simp [reverse_engineer_encoded_value, unwindValue]
  | succ d ih =>
    intro v ts ss
    rw [reverse_engineer_encoded_value]
    simp only [ih]
    simp [unwindValue, stepValue, List.range_succ, List.replicate_succ',
      List.append_assoc]

/-- C3: a top-level unwinder call with initial depth `L = ⌈k·log₂ n⌉` and
empty telemetry logs performs exactly `L` decode steps (the digit sequence
is `ithPermutation` applied to the `L`-fold decode chain `unwindValue v L`,
so the mapper is invoked exactly once, at depth 0) and terminates with
exactly `L` telemetry entries in each log, regardless of the value `v`. -/
theorem unwinder_step_count (n k v : Int) (elapsed : ℕ → ℚ)
    (_hn : 0 < n) (_hk : 0 < k) :
    (reverse_engineer_encoded_value elapsed v (ceilKLog2 n.toNat k.toNat)
        n k [] []).2.1.length = ceilKLog2 n.toNat k.toNat ∧
    (reverse_engineer_encoded_value elapsed v (ceilKLog2 n.toNat k.toNat)
        n k [] []).2.2.length = ceilKLog2 n.toNat k.toNat ∧
    (reverse_engineer_encoded_value elapsed v (ceilKLog2 n.toNat k.toNat)
        n k [] []).1 =
      ithPermutation n k (unwindValue v (ceilKLog2 n.toNat k.toNat)) := by
  rw [reverse_engineer_spec]
  simp

/-- Witness for C3 at `n = 2`, `k = 16`, `v = 37` (the spec's concrete
scenario, where `L = ⌈16·log₂ 2⌉ = 16`). -/
theorem unwinder_step_count_witness :
    ceilKLog2 (2 : Int).toNat (16 : Int).toNat = 16 ∧
    (0 : Int) < 2 ∧ (0 : Int) < 16 ∧
    (reverse_engineer_encoded_value (fun _ => 0) 37
        (ceilKLog2 (2 : Int).toNat (16 : Int).toNat) 2 16 [] []).2.1.length =
      ceilKLog2 (2 : Int).toNat (16 : Int).toNat :=
  ⟨by unfold ceilKLog2; exact Nat.clog_pow 2 16 (by norm_num),
   by decide, by decide,
    (unwinder_step_count 2 16 37 (fun _ => 0) (by decide) (by decide)).1⟩

/-- C4: an unwind step at depth `d > 0` hands the recursive call at depth
`d - 1` the value `stepValue v d = trunc(decode(v,1) − d/2)`, which equals
`trunc(v/2 − 1/2 − d/2)` — the subtraction of `d/2` is applied on top of
the `−1/2` already inside `decode(·, 1)` (double subtraction preserved). -/
theorem unwind_step_next_value (elapsed : ℕ → ℚ) (v : Int) (d : ℕ)
    (n k : Int) (ts : List ℚ) (ss : List Int) (hd : 0 < d) :
    reverse_engineer_encoded_value elapsed v d n k ts ss =
      ((reverse_engineer_encoded_value elapsed (stepValue v d) (d - 1) n k ts ss).1,
       (reverse_engineer_encoded_value elapsed (stepValue v d) (d - 1) n k ts ss).2.1
         ++ [elapsed d],
       (reverse_engineer_encoded_value elapsed (stepValue v d) (d - 1) n k ts ss).2.2
         ++ [sizeofVectorInt]) ∧
    stepValue v d = ratTrunc ((v : ℚ) / 2 - 1 / 2 - (d : ℚ) / 2) := by
  obtain ⟨d, rfl⟩ : ∃ e, d = e + 1 := ⟨d - 1, by omega⟩
  refine ⟨by rw [reverse_engineer_encoded_value]; rfl, ?_⟩
  unfold stepValue decode
  norm_num

/-- Witness for C4 at `v = 37`, `d = 5` (where the next value is
`trunc(37/2 − 1/2 − 5/2) = trunc(15.5) = 15`). -/
theorem unwind_step_next_value_witness :
    (0 < 5 ∧
      stepValue 37 5 = ratTrunc ((37 : ℚ) / 2 - 1 / 2 - (5 : ℕ) / 2)) ∧
    stepValue 37 5 = 15 :=
  ⟨⟨by decide,
    (unwind_step_next_value (fun _ => 0) 37 5 1 1 [] [] (by decide)).2⟩,
   by norm_num [stepValue, ratTrunc, decode]; decide⟩

/-- C8: for a top-level call with initial depth `L ≥ 1` and empty logs, the
samples appear in completion order: the `i`-th appended timing sample
(1-indexed, i.e. at list index `i − 1`) is the one measured by the step
operating at depth `i`, so depth 1 logs first and depth `L` logs last. -/
theorem telemetry_completion_order (elapsed : ℕ → ℚ) (v n k : Int)
    (L : ℕ) (_hL : 1 ≤ L) :
    (reverse_engineer_encoded_value elapsed v L n k [] []).2.1 =
      (List.range L).map (fun t => elapsed (t + 1)) := by
  rw [reverse_engineer_spec]
  simp

/-- Witness for C8 at `L = 3`: the log reads
`[elapsed 1, elapsed 2, elapsed 3]`. -/
theorem telemetry_completion_order_witness :
    1 ≤ 3 ∧
    (reverse_engineer_encoded_value (fun d => (d : ℚ)) 37 3 2 16 [] []).2.1 =
      (List.range 3).map (fun t => ((t + 1 : ℕ) : ℚ)) :=
  ⟨by decide, telemetry_completion_order (fun d => (d : ℚ)) 37 2 16 3 (by decide)⟩

/-- C9: an unwinder call never removes or modifies an existing telemetry
entry — for any depth and any starting log contents, the pre-call `timings`
and `sizes` are prefixes of the post-call logs (entries are only appended at
the end). -/
theorem telemetry_append_only (elapsed : ℕ → ℚ) (v : Int) (d : ℕ)
    (n k : Int) (ts : List ℚ) (ss : List Int) :
    (∃ appended,
      (reverse_engineer_encoded_value elapsed v d n k ts ss).2.1 =
        ts ++ appended) ∧
    (∃ appended,
      (reverse_engineer_encoded_value elapsed v d n k ts ss).2.2 =
        ss ++ appended) := by
  rw [reverse_engineer_spec]
  exact ⟨⟨_, rfl⟩, ⟨_, rfl⟩⟩

/-- C10: the digit sequence returned by the unwinder depends only on
`(value, layer_depth, n, k)`: two runs from arbitrary initial log contents
(and arbitrary wall-clock behaviour) return the same digit sequence. -/
theorem unwinder_result_deterministic (v : Int) (d : ℕ) (n k : Int)
    (e₁ e₂ : ℕ → ℚ) (ts₁ ts₂ : List ℚ) (ss₁ ss₂ : List Int) :
    (reverse_engineer_encoded_value e₁ v d n k ts₁ ss₁).1 =
      (reverse_engineer_encoded_value e₂ v d n k ts₂ ss₂).1 := by
  rw [reverse_engineer_spec, reverse_engineer_spec]

/-- On values inside the 32-bit signed range the wrap is the identity. -/
theorem wrap32_eq_self {x : Int} (h1 : -(2 ^ 31) ≤ x) (h2 : x < 2 ^ 31) :
    wrap32 x = x := by
  unfold wrap32
  rw [Int.emod_eq_of_lt (by omega) (by omega)]
  omega

/-- For `j ≤ 12` the running factor `j!` still fits in a 32-bit `int`
(`12! = 479001600 < 2^31`; `13!` overflows). -/
theorem factorial_lt_two_pow_31 {j : ℕ} (h : j ≤ 12) :
    Nat.factorial j < 2 ^ 31 :=
  lt_of_le_of_lt (Nat.factorial_le h) (by decide)

/-- While no overflow occurs (`p + m ≤ 12`), the loop of `ithPermutation`
started at index `p + 1` with factor `p!` produces the digits
`(i / (p+t+1)!) mod (p+t+2)` for `t = 0, …, m − 1`. -/
theorem ithPermAux_factorial (i : Int) :
    ∀ (m p : ℕ), p + m ≤ 12 →
    ithPermAux i m (p + 1) ((Nat.factorial p : ℕ) : Int) =
      (List.range m).map
        (fun t => (i.tdiv ((Nat.factorial (p + 1 + t) : ℕ) : Int)).tmod
          ((p : Int) + (t : Int) + 2)) := by
  intro m
  induction m with
  | zero =>
    intro p _
    simp [ithPermAux]
  | succ m ih =>
    intro p hp
    have hf : wrap32 (((Nat.factorial p : ℕ) : Int) * ((p + 1 : ℕ) : Int)) =
        ((Nat.factorial (p + 1) : ℕ) : Int) := by
      have hmul : ((Nat.factorial p : ℕ) : Int) * ((p + 1 : ℕ) : Int) =
          ((Nat.factorial (p + 1) : ℕ) : Int) := by
        push_cast [Nat.factorial_succ]
        ring
      rw [hmul]
      refine wrap32_eq_self (by omega) ?_
      exact_mod_cast factorial_lt_two_pow_31 (by omega)
    simp only [ithPermAux, hf]
    rw [ih (p + 1) (by omega)]
    rw [List.range_succ_eq_map, List.map_cons, List.map_map]
    refine congr_arg₂ List.cons ?_ ?_
    · simp
      ring_nf
    · refine List.map_congr_left fun t _ => ?_
      simp only [Function.comp_apply, Nat.succ_eq_add_one]
      have h1 : p + 1 + 1 + t = p + 1 + (t + 1) := by omega
      rw [h1]
      push_cast
      ring_nf

/-- For `k ≤ 12` (no `int` overflow of the running factor) the mapper
returns exactly the digits `(i / (t+1)!) mod (t+2)` for `t = 0, …, k−1`. -/
theorem ithPermutation_digits (n k i : Int) (hk12 : k.toNat ≤ 12) :
    ithPermutation n k i =
      (List.range k.toNat).map
        (fun t => (i.tdiv ((Nat.factorial (t + 1) : ℕ) : Int)).tmod
          ((t : Int) + 2)) := by
  unfold ithPermutation
  have h := ithPermAux_factorial i k.toNat 0 (by omega)
  simp only [Nat.factorial_zero, Nat.cast_one, Nat.zero_add, Nat.cast_zero] at h
  rw [h]
  refine List.map_congr_left fun t _ => ?_
  rw [Nat.add_comm 1 t, zero_add]

/-- C2 (amended): for positive `n`, positive `k ≤ 12` (so that every
running factor `j!` fits in a 32-bit `int`) and a rank `i` in the
non-negative `int` range, `ithPermutation` returns a sequence of length
exactly `k` whose digit at 1-indexed position `j` lies in `[0, j]` and
equals `(i / j!) mod (j+1)` with truncating division.  (As stated over all
positive `k` the claim fails: at `k = 13` the 32-bit factor overflows and
the digit no longer follows the `j!` formula.) -/
theorem ithPermutation_contract (n k i : Int)
    (_hn : 0 < n) (hk : 0 < k) (hk12 : k ≤ 12) (hi0 : 0 ≤ i)
    (_hi1 : i < 2 ^ 31) :
    (ithPermutation n k i).length = k.toNat ∧
    ∀ j : ℕ, 1 ≤ j → j ≤ k.toNat →
      0 ≤ (ithPermutation n k i).getD (j - 1) 0 ∧
      (ithPermutation n k i).getD (j - 1) 0 ≤ (j : Int) ∧
      (ithPermutation n k i).getD (j - 1) 0 =
        (i.tdiv ((Nat.factorial j : ℕ) : Int)).tmod ((j : Int) + 1) := by
  have hkt : k.toNat ≤ 12 := by omega
  rw [ithPermutation_digits n k i hkt]
  refine ⟨by simp, ?_⟩
  intro j hj1 hj2
  have hjlt : j - 1 < k.toNat := by omega
  have hlen : j - 1 <
      ((List.range k.toNat).map
        (fun t => (i.tdiv ((Nat.factorial (t + 1) : ℕ) : Int)).tmod
          ((t : Int) + 2))).length := by
    simpa using hjlt
  rw [List.getD_eq_getElem _ _ hlen, List.getElem_map, List.getElem_range]
  have hsub : j - 1 + 1 = j := by omega
  have hcast : ((j - 1 : ℕ) : Int) + 2 = (j : Int) + 1 := by
    omega
  rw [hsub, hcast]
  have hfac : (0 : Int) < ((Nat.factorial j : ℕ) : Int) := by
    exact_mod_cast Nat.factorial_pos j
  have hq : 0 ≤ i.tdiv ((Nat.factorial j : ℕ) : Int) :=
    Int.tdiv_nonneg hi0 (le_of_lt hfac)
  refine ⟨Int.tmod_nonneg _ hq, ?_, rfl⟩
  have := Int.tmod_lt_of_pos (i.tdiv ((Nat.factorial j : ℕ) : Int))
    (b := (j : Int) + 1) (by omega)
  omega

/-- Witness for C2 (amended) at the spec's concrete scenario
`n = 10, k = 3, i = 37`, whose digit sequence is `[1, 0, 2]`. -/
theorem ithPermutation_contract_witness :
    (ithPermutation 10 3 37 = [1, 0, 2] ∧
      (0 : Int) < 10 ∧ (0 : Int) < 3 ∧ (3 : Int) ≤ 12 ∧
      (0 : Int) ≤ 37 ∧ (37 : Int) < 2 ^ 31) ∧
    ((ithPermutation 10 3 37).length = (3 : Int).toNat ∧
      ∀ j : ℕ, 1 ≤ j → j ≤ (3 : Int).toNat →
        0 ≤ (ithPermutation 10 3 37).getD (j - 1) 0 ∧
        (ithPermutation 10 3 37).getD (j - 1) 0 ≤ (j : Int) ∧
        (ithPermutation 10 3 37).getD (j - 1) 0 =
          ((37 : Int).tdiv ((Nat.factorial j : ℕ) : Int)).tmod ((j : Int) + 1)) :=
  ⟨⟨by decide, by decide, by decide, by decide, by decide, by decide⟩,
    ithPermutation_contract 10 3 37 (by decide) (by decide) (by decide)
      (by decide) (by decide)⟩

/-- C2 counterexample: at `k = 13` the running factor overflows 32-bit
`int` arithmetic (`13! mod 2^32 = 1932053504`), so for rank
`i = 2^31 − 1 = 2147483647` the 13th digit produced by the code is `1`,
while the claimed formula `(i / 13!) mod 14` yields `0` — the claim as
stated over every positive `k` is false. -/
theorem ithPermutation_claim_counterexample :
    (ithPermutation 13 13 2147483647).getD 12 0 ≠
      ((2147483647 : Int).tdiv ((Nat.factorial 13 : ℕ) : Int)).tmod 14 := by
  set_option maxRecDepth 8000 in decide

/-- C7: the size component the code logs is `sizeof(result)` — the size of
the `std::vector<int>` object header, a compile-time constant — not the
byte-size of the digit sequence the inner step returned.  At depth 1 with
`n = 10`, `k = 5` the appended entry is the constant 24 while the returned
digit sequence occupies `5 × 4 = 20` bytes. -/
theorem telemetry_size_is_header_constant :
    (reverse_engineer_encoded_value (fun _ => 0) 37 1 10 5 [] []).2.2 =
      [sizeofVectorInt] ∧
    sizeofVectorInt = 24 ∧
    (reverse_engineer_encoded_value (fun _ => 0) 37 1 10 5 [] []).1.length * 4
      = 20 := by
  refine ⟨?_, rfl, ?_⟩
  · rw [reverse_engineer_spec]
    rfl
  · rw [reverse_engineer_spec]
    rw [ithPermutation_digits 10 5 (unwindValue 37 1) (by decide)]
    simp

/-- The phase of `main` from `speedy_min.cpp` after option parsing: load
the candidate values, compute `l = ceil(k * log2(n))`, take the minimum
and unwind it.  `main` performs no validation of `n` or `k` whatsoever;
the model returns `none` exactly where the C++ evaluation is undefined:
with `n ≤ 0`, `log2(n)` is `-inf`/`NaN` and casting `ceil(k * log2(n))`
to `int` is UB; with `l < 0` (negative `k`, `n ≥ 2`) the unwinder recurses
on a negative depth without terminating; `min_element` over an empty range
is UB.  There is no `InvalidArgument` (nor any other structured error)
path anywhere in the source, so the model's result type has none.  The
wall-clock oracle is fixed at 0 (no claim depends on it). -/
def mainUnwindPhase (n k : Int) (values : List Int) :
    Option (Int × (List Int × List ℚ × List Int)) :=
  if n ≤ 0 then none
  else if k < 0 ∧ 1 < n then none
  else
    match values with
    | [] => none
    | v :: vs =>
      let l := ceilKLog2 n.toNat k.toNat
      let m := vs.foldl min v
      some (m, reverse_engineer_encoded_value (fun _ => 0) m l n k [] [])

/-- C5: `main` does not reject `n = 0, k = 5` with an `InvalidArgument`
condition — there is no validation or structured error path at all.
Evaluation proceeds straight into `l = ceil(5 * log2(0))`, which is
undefined (modelled `none`), instead of failing with `InvalidArgument`
before computation. -/
theorem main_rejects_nothing :
    mainUnwindPhase 0 5 [37] = none := by
  rfl

/-- C6: `load_values_from_csv` silently coerces a malformed token to the
value zero (a failed `operator>>` extraction zeroes its target and the
code pushes it unconditionally) — no `MalformedInput` condition exists in
the source.  Input line `"abc"` yields the value `0`. -/
theorem load_values_malformed_to_zero :
    load_values_from_csv ["abc", "42"] = [0, 42] := by
  rfl
